import Mathlib

/-!
Verification development for the `conv` Rust crate: strict, typed numeric
conversions (exact `ValueFrom`, approximate `ApproxFrom` with selectable
scheme, general `TryFrom`), their per-type-pair rule tables, the error
lattice and the unwrap helpers.

Machine integers are modelled as `Int` with explicit range predicates and a
two's-complement `as`-cast.  IEEE floating point values are modelled by the
inductive `Fp`: NaN, signed infinities, and finite values carried as exact
rationals; rounding of integers into a format with `p` significand bits is
implemented by `intToFp`.  All definitions are executable.
-/

set_option maxHeartbeats 1000000

namespace RustConv

/-- A fixed-width machine integer type: signedness and bit width.
Mirrors the set of Rust built-in integer types used by the crate. -/
structure IntTy where
  signed : Bool
  bits : Nat
deriving DecidableEq

/-- `min_of!($t)`: the least representable value of the type. -/
def IntTy.min (t : IntTy) : Int :=
  if t.signed then -(2 ^ (t.bits - 1)) else 0

/-- `max_of!($t)`: the greatest representable value of the type. -/
def IntTy.max (t : IntTy) : Int :=
  if t.signed then 2 ^ (t.bits - 1) - 1 else 2 ^ t.bits - 1

/-- `n` is a value of type `t` (the implicit invariant of a Rust value). -/
def inRange (t : IntTy) (n : Int) : Prop :=
  t.min ≤ n ∧ n ≤ t.max

instance (t : IntTy) (n : Int) : Decidable (inRange t n) := by
  unfold inRange; infer_instance

/-- Rust's integer `as`-cast: two's-complement truncation of `n` into the
width of `t`, reinterpreted according to `t`'s signedness. -/
def intCast (t : IntTy) (n : Int) : Int :=
  let m := n % (2 ^ t.bits : Int)
  if t.signed ∧ 2 ^ (t.bits - 1) ≤ m then m - 2 ^ t.bits else m

/-- The names of the ten Rust integer types appearing in `lang_ints`. -/
inductive ITy
  | i8 | i16 | i32 | i64 | u8 | u16 | u32 | u64 | isz | usz
deriving DecidableEq, Fintype

/-- The concrete layout of each named type; `isize`/`usize` depend on the
target pointer width (`w64 = true` means a 64-bit target). -/
def ITy.ty (w64 : Bool) : ITy → IntTy
  | .i8 => ⟨true, 8⟩
  | .i16 => ⟨true, 16⟩
  | .i32 => ⟨true, 32⟩
  | .i64 => ⟨true, 64⟩
  | .u8 => ⟨false, 8⟩
  | .u16 => ⟨false, 16⟩
  | .u32 => ⟨false, 32⟩
  | .u64 => ⟨false, 64⟩
  | .isz => ⟨true, if w64 then 64 else 32⟩
  | .usz => ⟨false, if w64 then 64 else 32⟩

/-- The `num_conv!` macro's rule categories for integer→integer pairs:
`e` exact, `nP` = `n+`, `nM` = `n-`, `n`, `wP` = `w+`, `w`. -/
inductive Arm
  | e | nP | nM | n | wP | w
deriving DecidableEq, Fintype

/-- Transcription of the `lang_ints` rule table: which `num_conv!` arm is
declared for each ordered pair of distinct integer types, per pointer
width.  `none` for pairs with no table entry (only the reflexive blanket
impl applies to those). -/
def arm (w64 : Bool) : ITy → ITy → Option Arm
  | .i8, .i16 => some .w
  | .i8, .i32 => some .w
  | .i8, .i64 => some .w
  | .i8, .u8 => some .wP
  | .i8, .u16 => some .wP
  | .i8, .u32 => some .wP
  | .i8, .u64 => some .wP
  | .i8, .isz => some .w
  | .i8, .usz => some .wP
  | .i16, .i8 => some .n
  | .i16, .i32 => some .w
  | .i16, .i64 => some .w
  | .i16, .u8 => some .nP
  | .i16, .u16 => some .wP
  | .i16, .u32 => some .wP
  | .i16, .u64 => some .wP
  | .i16, .isz => some .w
  | .i16, .usz => some .wP
  | .i32, .i8 => some .n
  | .i32, .i16 => some .n
  | .i32, .i64 => some .w
  | .i32, .u8 => some .nP
  | .i32, .u16 => some .nP
  | .i32, .u32 => some .wP
  | .i32, .u64 => some .wP
  | .i32, .isz => some (if w64 then .w else .e)
  | .i32, .usz => some .wP
  | .i64, .i8 => some .n
  | .i64, .i16 => some .n
  | .i64, .i32 => some .n
  | .i64, .u8 => some .nP
  | .i64, .u16 => some .nP
  | .i64, .u32 => some .nP
  | .i64, .u64 => some .wP
  | .i64, .isz => some (if w64 then .e else .n)
  | .i64, .usz => some .nP
  | .u8, .i8 => some .nM
  | .u8, .i16 => some .w
  | .u8, .i32 => some .w
  | .u8, .i64 => some .w
  | .u8, .u16 => some .w
  | .u8, .u32 => some .w
  | .u8, .u64 => some .w
  | .u8, .isz => some .w
  | .u8, .usz => some .w
  | .u16, .i8 => some .nM
  | .u16, .i16 => some .nM
  | .u16, .i32 => some .w
  | .u16, .i64 => some .w
  | .u16, .u8 => some .nM
  | .u16, .u32 => some .w
  | .u16, .u64 => some .w
  | .u16, .isz => some .w
  | .u16, .usz => some .w
  | .u32, .i8 => some .nM
  | .u32, .i16 => some .nM
  | .u32, .i32 => some .nM
  | .u32, .i64 => some .w
  | .u32, .u8 => some .nM
  | .u32, .u16 => some .nM
  | .u32, .u64 => some .w
  | .u32, .isz => some (if w64 then .w else .nM)
  | .u32, .usz => some (if w64 then .w else .e)
  | .u64, .i8 => some .nM
  | .u64, .i16 => some .nM
  | .u64, .i32 => some .nM
  | .u64, .i64 => some .nM
  | .u64, .u8 => some .nM
  | .u64, .u16 => some .nM
  | .u64, .u32 => some .nM
  | .u64, .isz => some .nM
  | .u64, .usz => some (if w64 then .e else .nM)
  | .isz, .i8 => some .n
  | .isz, .i16 => some .n
  | .isz, .i32 => some (if w64 then .n else .e)
  | .isz, .i64 => some (if w64 then .e else .w)
  | .isz, .u8 => some .nP
  | .isz, .u16 => some .nP
  | .isz, .u32 => some (if w64 then .nP else .wP)
  | .isz, .u64 => some .wP
  | .isz, .usz => some .wP
  | .usz, .i8 => some .nM
  | .usz, .i16 => some .nM
  | .usz, .i32 => some .nM
  | .usz, .i64 => some (if w64 then .nM else .w)
  | .usz, .u8 => some .nM
  | .usz, .u16 => some .nM
  | .usz, .u32 => some (if w64 then .nM else .e)
  | .usz, .u64 => some (if w64 then .e else .w)
  | .usz, .isz => some .nM
  | _, _ => none

instance {ε α : Type} [DecidableEq ε] [DecidableEq α] : DecidableEq (Except ε α) :=
  fun x y =>
    match x, y with
    | .ok a, .ok b =>
      if h : a = b then .isTrue (by rw [h])
      else .isFalse (by intro hc; injection hc; contradiction)
    | .ok _, .error _ => .isFalse (by intro hc; cases hc)
    | .error _, .ok _ => .isFalse (by intro hc; cases hc)
    | .error a, .error b =>
      if h : a = b then .isTrue (by rw [h])
      else .isFalse (by intro hc; injection hc; contradiction)

/-- Conversion errors with the failed source value as payload, as in
`errors::RangeError<T>::NegOverflow(src)` / `PosOverflow(src)` (and the
single-constructor `NegOverflow<T>` / `PosOverflow<T>` wrappers). -/
inductive NumErr (α : Type)
  | negOverflow (v : α)
  | posOverflow (v : α)
deriving DecidableEq

/-- The crate's error-type lattice points used as associated `Err` types. -/
inductive ErrKind
  | noErr | negOnly | posOnly | range | float
deriving DecidableEq

/-- `approx_blind!`: `Ok(src as $dst)`, associated error type `NoError`. -/
def approx_blind (cast : Int → Int) (src : Int) : Except (NumErr Int) Int :=
  .ok (cast src)

/-- `approx_z_to_dmax!`: fail below `0` / above `max_of!($dst) as $src`. -/
def approx_z_to_dmax (dmax : Int) (cast : Int → Int) (src : Int) :
    Except (NumErr Int) Int :=
  if ¬ (0 ≤ src) then .error (.negOverflow src)
  else if ¬ (src ≤ dmax) then .error (.posOverflow src)
  else .ok (cast src)

/-- `approx_to_dmax!`: fail above `max_of!($dst) as $src` only. -/
def approx_to_dmax (dmax : Int) (cast : Int → Int) (src : Int) :
    Except (NumErr Int) Int :=
  if ¬ (src ≤ dmax) then .error (.posOverflow src)
  else .ok (cast src)

/-- `approx_dmin_to_dmax!`: fail outside `[min_of!($dst) as $src, max_of!($dst) as $src]`. -/
def approx_dmin_to_dmax (dmin dmax : Int) (cast : Int → Int) (src : Int) :
    Except (NumErr Int) Int :=
  if ¬ (dmin ≤ src) then .error (.negOverflow src)
  else if ¬ (src ≤ dmax) then .error (.posOverflow src)
  else .ok (cast src)

/-- `approx_z_up!`: fail below `0` only. -/
def approx_z_up (cast : Int → Int) (src : Int) : Except (NumErr Int) Int :=
  if ¬ (0 ≤ src) then .error (.negOverflow src)
  else .ok (cast src)

/-- `ValueFrom` body of the `e` and `w` arms: `Ok(src as $dst)`. -/
def value_from_cast (cast : Int → Int) (src : Int) : Except (NumErr Int) Int :=
  .ok (cast src)

/-- `ValueFrom` body of the `n+` arm. -/
def value_from_n_plus (dmax : Int) (cast : Int → Int) (src : Int) :
    Except (NumErr Int) Int :=
  if ¬ (0 ≤ src) then .error (.negOverflow src)
  else if ¬ (src ≤ dmax) then .error (.posOverflow src)
  else .ok (cast src)

/-- `ValueFrom` body of the `n-` arm. -/
def value_from_n_minus (dmax : Int) (cast : Int → Int) (src : Int) :
    Except (NumErr Int) Int :=
  if ¬ (src ≤ dmax) then .error (.posOverflow src)
  else .ok (cast src)

/-- `ValueFrom` body of the `n` arm. -/
def value_from_n (dmin dmax : Int) (cast : Int → Int) (src : Int) :
    Except (NumErr Int) Int :=
  if ¬ (dmin ≤ src) then .error (.negOverflow src)
  else if ¬ (src ≤ dmax) then .error (.posOverflow src)
  else .ok (cast src)

/-- `ValueFrom` body of the `w+` arm. -/
def value_from_w_plus (cast : Int → Int) (src : Int) : Except (NumErr Int) Int :=
  if ¬ (0 ≤ src) then .error (.negOverflow src)
  else .ok (cast src)

/-- The `ValueFrom` implementation emitted by each `num_conv!` arm for the
pair `(s, d)`, with the bound constants `min_of!($dst) as $src` /
`max_of!($dst) as $src` computed by the `as`-cast exactly as in the source. -/
def valueByArm (w64 : Bool) (s d : ITy) : Arm → Int → Except (NumErr Int) Int
  | .e => value_from_cast (intCast (d.ty w64))
  | .nP => value_from_n_plus (intCast (s.ty w64) (d.ty w64).max) (intCast (d.ty w64))
  | .nM => value_from_n_minus (intCast (s.ty w64) (d.ty w64).max) (intCast (d.ty w64))
  | .n =>
    value_from_n (intCast (s.ty w64) (d.ty w64).min)
      (intCast (s.ty w64) (d.ty w64).max) (intCast (d.ty w64))
  | .wP => value_from_w_plus (intCast (d.ty w64))
  | .w => value_from_cast (intCast (d.ty w64))

/-- The `ApproxFrom<_, DefaultApprox>` implementation emitted by each
`num_conv!` arm (the `approx_*` macro chosen by that arm). -/
def approxDefaultByArm (w64 : Bool) (s d : ITy) : Arm → Int → Except (NumErr Int) Int
  | .e => approx_blind (intCast (d.ty w64))
  | .nP => approx_z_to_dmax (intCast (s.ty w64) (d.ty w64).max) (intCast (d.ty w64))
  | .nM => approx_to_dmax (intCast (s.ty w64) (d.ty w64).max) (intCast (d.ty w64))
  | .n =>
    approx_dmin_to_dmax (intCast (s.ty w64) (d.ty w64).min)
      (intCast (s.ty w64) (d.ty w64).max) (intCast (d.ty w64))
  | .wP => approx_z_up (intCast (d.ty w64))
  | .w => approx_blind (intCast (d.ty w64))

/-- Every `num_conv!` arm emits `approx_blind!` for the `Wrapping` scheme:
the wrapping conversion for any table pair is `Ok(src as $dst)`. -/
def wrappingByArm (w64 : Bool) (d : ITy) (src : Int) : Except (NumErr Int) Int :=
  approx_blind (intCast (d.ty w64)) src

/-- The reflexive blanket impl `ApproxFrom<Src, Scheme> for Src`: `Ok(src)`. -/
def approxSelf (src : Int) : Except (NumErr Int) Int :=
  .ok src

/-- The associated `Err` type declared by each arm's `ValueFrom` impl. -/
def valueArmKind : Arm → ErrKind
  | .e => .noErr
  | .nP => .range
  | .nM => .posOnly
  | .n => .range
  | .wP => .negOnly
  | .w => .noErr

/-- The associated `Err` type declared by each arm's default-scheme
`ApproxFrom` impl (`approx_blind`/`approx_z_to_dmax`/`approx_to_dmax`/
`approx_dmin_to_dmax`/`approx_z_up`). -/
def approxDefaultArmKind : Arm → ErrKind
  | .e => .noErr
  | .nP => .range
  | .nM => .posOnly
  | .n => .range
  | .wP => .negOnly
  | .w => .noErr

/-- The associated `Err` type of every `Wrapping` impl (`approx_blind!`)
is `NoError`. -/
def wrappingArmKind : Arm → ErrKind :=
  fun _ => .noErr

/-- The complete `ValueFrom` conversion for an integer pair: `none` when no
implementation exists for the ordered pair (`s ≠ d` required; the reflexive
blanket impl is separate). -/
def value_from_int (w64 : Bool) (s d : ITy) (src : Int) :
    Option (Except (NumErr Int) Int) :=
  (arm w64 s d).map fun a => valueByArm w64 s d a src

/-- Modular two's-complement truncation of `n` into the width of `t`,
written from the spec's words: "the result equals two's-complement/modular
truncation of the source into the destination width". -/
def spec_modular_truncation (t : IntTy) (n : Int) : Int :=
  if t.signed then (n + 2 ^ (t.bits - 1)) % 2 ^ t.bits - 2 ^ (t.bits - 1)
  else n % 2 ^ t.bits

/-! ## Floating point model

An IEEE binary floating point value is NaN, a signed infinity, or a finite
value, carried as an exact rational.  Exponent overflow cannot occur in any
of the crate's guarded code paths (all bound constants are far below the
formats' finite limits), so finite values need no exponent cap here. -/

/-- A floating point value. -/
inductive Fp
  | nan
  | inf (neg : Bool)
  | finite (q : Rat)
deriving DecidableEq

/-- `is_nan`. -/
def Fp.isNan : Fp → Bool
  | .nan => true
  | _ => false

/-- `is_finite`. -/
def Fp.isFinite : Fp → Bool
  | .finite _ => true
  | _ => false

/-- IEEE `<=` as Rust's `PartialOrd` on floats: any comparison against NaN
is false; `-inf` is below and `+inf` above every non-NaN value. -/
def fpLe : Fp → Fp → Bool
  | .nan, _ => false
  | _, .nan => false
  | .inf true, _ => true
  | _, .inf true => false
  | _, .inf false => true
  | .inf false, _ => false
  | .finite a, .finite b => a ≤ b

/-- IEEE `<` on floats; NaN incomparable. -/
def fpLt : Fp → Fp → Bool
  | .nan, _ => false
  | _, .nan => false
  | .inf true, .inf true => false
  | .inf true, _ => true
  | _, .inf true => false
  | .inf false, _ => false
  | _, .inf false => true
  | .finite a, .finite b => a < b

/-- `2 ^ k` over the rationals for an integer exponent `k`. -/
def q2pow (k : Int) : Rat :=
  if 0 ≤ k then ((2 ^ k.toNat : Nat) : Rat) else 1 / ((2 ^ (-k).toNat : Nat) : Rat)

/-- `⌊log₂ x⌋` for a positive rational `x` (unspecified otherwise):
estimate from the numerator's and denominator's bit lengths, then adjust. -/
def ratLog2 (x : Rat) : Int :=
  let a := x.num.natAbs
  let b := x.den
  let e0 : Int := (Nat.log2 a : Int) - (Nat.log2 b : Int)
  if x < q2pow (e0 - 1) then e0 - 2
  else if x < q2pow e0 then e0 - 1
  else if x < q2pow (e0 + 1) then e0
  else e0 + 1

/-- Round a rational to the nearest integer, ties to even. -/
def rintNearestEven (s : Rat) : Int :=
  let n := s.floor
  let f := s - (n : Rat)
  if f < 1 / 2 then n
  else if 1 / 2 < f then n + 1
  else if n % 2 = 0 then n else n + 1

/-- Round a rational to a floating point format with `p` significand bits
(round to nearest, ties to even; unbounded exponent). -/
def rne (p : Nat) (q : Rat) : Rat :=
  if q = 0 then 0
  else
    let ulp : Int := ratLog2 |q| + 1 - (p : Int)
    (rintNearestEven (q * q2pow (-ulp)) : Rat) * q2pow ulp

/-- Rust's integer→float `as`-cast into a format with `p` significand bits:
exact whenever the magnitude does not exceed `2 ^ p`, otherwise rounded to
nearest (ties to even). -/
def intToFp (p : Nat) (n : Int) : Rat :=
  if n.natAbs ≤ 2 ^ p then (n : Rat) else rne p (n : Rat)

/-- The two Rust floating point types. -/
inductive FTy
  | f32 | f64
deriving DecidableEq, Fintype

/-- Significand bits: 24 for single, 53 for double precision. -/
def FTy.prec : FTy → Nat
  | .f32 => 24
  | .f64 => 53

/-- `src as $float` on a value of an integer type. -/
def intToFpVal (fmt : FTy) (z : Int) : Fp :=
  .finite (intToFp fmt.prec z)

/-- The `lang_int_to_float` rule categories: `w` (exact widening),
`nf [+- bound]`, and `nf [, bound]`, each carrying its literal bound. -/
inductive FArm
  | wF
  | nfPM (bound : Int)
  | nfMax (bound : Int)
deriving DecidableEq

/-- Transcription of the `lang_int_to_float` table (no `isize`/`usize`
entries exist there). -/
def armF : ITy → FTy → Option FArm
  | .i8, _ => some .wF
  | .i16, _ => some .wF
  | .i32, .f32 => some (.nfPM 16777216)
  | .i32, .f64 => some .wF
  | .i64, .f32 => some (.nfPM 16777216)
  | .i64, .f64 => some (.nfPM 9007199254740992)
  | .u8, _ => some .wF
  | .u16, _ => some .wF
  | .u32, .f32 => some (.nfMax 16777216)
  | .u32, .f64 => some .wF
  | .u64, .f32 => some (.nfMax 16777216)
  | .u64, .f64 => some (.nfMax 9007199254740992)
  | .isz, _ => none
  | .usz, _ => none

/-- `ValueFrom` body of the `nf [+- $bound]` arm. -/
def value_from_nf_pm (bound : Int) (toF : Int → Fp) (src : Int) :
    Except (NumErr Int) Fp :=
  if ¬ (-bound ≤ src) then .error (.negOverflow src)
  else if ¬ (src ≤ bound) then .error (.posOverflow src)
  else .ok (toF src)

/-- `ValueFrom` body of the `nf [, $max]` arm. -/
def value_from_nf_max (bound : Int) (toF : Int → Fp) (src : Int) :
    Except (NumErr Int) Fp :=
  if ¬ (src ≤ bound) then .error (.posOverflow src)
  else .ok (toF src)

/-- The `ValueFrom` implementation for an integer→float pair by arm. -/
def valueFloatByArm (fmt : FTy) : FArm → Int → Except (NumErr Int) Fp
  | .wF => fun src => .ok (intToFpVal fmt src)
  | .nfPM b => value_from_nf_pm b (intToFpVal fmt)
  | .nfMax b => value_from_nf_max b (intToFpVal fmt)

/-- The complete integer→float `ValueFrom` conversion. -/
def value_from_int_to_float (fmt : FTy) (s : ITy) (src : Int) :
    Option (Except (NumErr Int) Fp) :=
  (armF s fmt).map fun a => valueFloatByArm fmt a src

/-- The associated `Err` type declared by each integer→float `ValueFrom`
impl: `NoError` for `w`, `RangeError<$src>` for `nf [+-]`, and
`PosOverflow<$src>` for `nf [,]`. -/
def valueFloatArmKind : FArm → ErrKind
  | .wF => .noErr
  | .nfPM _ => .range
  | .nfMax _ => .posOnly

/-! ## Float→integer approximation (`fan` arms) -/

/-- Errors of `errors::FloatError<T>`, payload as in the source. -/
inductive FloatErr (α : Type)
  | notANumber (v : α)
  | negOverflow (v : α)
  | posOverflow (v : α)
deriving DecidableEq

/-- Apply a rational transform to the finite part of a float (NaN and the
infinities are fixed, as for Rust's `round`/`floor`/`ceil`/`trunc`). -/
def Fp.mapFinite (f : Rat → Rat) : Fp → Fp
  | .nan => .nan
  | .inf b => .inf b
  | .finite q => .finite (f q)

/-- Rust `f64::round`: nearest integer, half-way cases away from zero. -/
def rustRound (q : Rat) : Rat :=
  if 0 ≤ q then ((q + 1 / 2).floor : Int) else -(((-q + 1 / 2).floor : Int))

/-- Truncation toward zero of a rational. -/
def truncQ (q : Rat) : Rat :=
  if 0 ≤ q then (q.floor : Int) else (q.ceil : Int)

/-- The approximation schemes instantiated by the `fan` arm. -/
inductive Scheme
  | default | roundToNearest | roundToNegInf | roundToPosInf | roundToZero
deriving DecidableEq, Fintype

/-- The pre-transform each scheme applies before the range check: identity
for `DefaultApprox`, `round`/`floor`/`ceil`/`trunc` for the rounding
schemes, exactly as passed to `approx_dmin_to_dmax_no_nan!` by `fan`. -/
def Scheme.pre : Scheme → Fp → Fp
  | .default => fun s => s
  | .roundToNearest => Fp.mapFinite rustRound
  | .roundToNegInf => Fp.mapFinite fun q => (q.floor : Int)
  | .roundToPosInf => Fp.mapFinite fun q => (q.ceil : Int)
  | .roundToZero => Fp.mapFinite truncQ

/-- Rust float→integer `as`-cast (truncation toward zero); only reached on
finite values inside the guarded range. -/
def fpTruncInt : Fp → Int
  | .finite q => if 0 ≤ q then q.floor else q.ceil
  | _ => 0

/-- `approx_dmin_to_dmax_no_nan!`: NaN fails first with `NotANumber`; the
scheme's transform is applied; the result is range-checked against the
destination bounds expressed in the source float type; then converted. -/
def approx_dmin_to_dmax_no_nan (dmin dmax : Fp) (conv : Fp → Fp) (src : Fp) :
    Except (FloatErr Fp) Int :=
  if src.isNan then .error (.notANumber src)
  else
    let approx := conv src
    if ¬ (fpLe dmin approx) then .error (.negOverflow src)
    else if ¬ (fpLe approx dmax) then .error (.posOverflow src)
    else .ok (fpTruncInt approx)

/-- The `lang_float_to_int` instance for a source format, destination
integer type and scheme: the `fan` arm instantiates
`approx_dmin_to_dmax_no_nan!` with `min_of!($dst) as $src` and
`max_of!($dst) as $src` as bounds. -/
def float_to_int_approx (fmt : FTy) (w64 : Bool) (t : ITy) (sch : Scheme) :
    Fp → Except (FloatErr Fp) Int :=
  approx_dmin_to_dmax_no_nan (.finite (intToFp fmt.prec (t.ty w64).min))
    (.finite (intToFp fmt.prec (t.ty w64).max)) sch.pre

/-! ## Float→float -/

/-- `::std::f32::MAX as f64` — exactly `(2^24 - 1) * 2^104`. -/
def f32_max_as_f64 : Rat :=
  (2 ^ 24 - 1) * 2 ^ 104

/-- `::std::f32::MIN as f64` — the negation of `f32::MAX`. -/
def f32_min_as_f64 : Rat :=
  -f32_max_as_f64

/-- Rust `f64 as f32`: NaN and the infinities pass through; finite values
are rounded to single precision.  (Exponent overflow of the cast cannot be
reached through `ApproxFrom<f64> for f32`, whose guards exclude it.) -/
def cast_f64_to_f32 : Fp → Fp
  | .nan => .nan
  | .inf b => .inf b
  | .finite q => .finite (rne 24 q)

/-- `impl ApproxFrom<f64> for f32` from `lang_floats`. -/
def approx_f64_to_f32 (src : Fp) : Except (NumErr Fp) Fp :=
  if ¬ src.isFinite then .ok (cast_f64_to_f32 src)
  else if ¬ (fpLe (.finite f32_min_as_f64) src) then .error (.negOverflow src)
  else if ¬ (fpLe src (.finite f32_max_as_f64)) then .error (.posOverflow src)
  else .ok (cast_f64_to_f32 src)

/-- `impl ValueFrom<f32> for f64` (and `ApproxFrom<f32, Scheme> for f64`):
`Ok(src as f64)`; every single-precision value is exactly representable in
double precision, so the cast is the identity on our float model. -/
def value_from_f32_to_f64 (src : Fp) : Except (NumErr Fp) Fp :=
  .ok src

/-! ## Integer ↔ char -/

/-- `TryFrom` errors for char conversions: `Unrepresentable<T>(src)`. -/
inductive CharErr (α : Type)
  | unrepresentable (v : α)
deriving DecidableEq

/-- `::std::char::from_u32`: rejects surrogate code points and values above
`char::MAX = 0x10FFFF` (the argument is a `u32`, hence non-negative). -/
def char_from_u32 (n : Int) : Option Int :=
  if (0xD800 ≤ n ∧ n ≤ 0xDFFF) ∨ 0x10FFFF < n then none else some n

/-- The body of the `conv_int_to_char!` macro: convert the source to `u32`
with `ValueFrom` (through the `lang_ints` table), map any failure to
`Unrepresentable(src)`, then go through `TryFrom<u32> for char`, mapping
its failure to `Unrepresentable(src)` as well.  (Every source type the
macro is invoked with has a `lang_ints` entry targeting `u32`; the `none`
fallback below is never reached.) -/
def conv_int_to_char (w64 : Bool) (s : ITy) (src : Int) :
    Except (CharErr Int) Int :=
  match arm w64 s .u32 with
  | some a =>
    match valueByArm w64 s .u32 a src with
    | .error _ => .error (.unrepresentable src)
    | .ok usv =>
      match char_from_u32 usv with
      | some c => .ok c
      | none => .error (.unrepresentable src)
  | none => .error (.unrepresentable src)

/-- The `TryFrom<$int> for char` implementations of `lang_int_to_char`:
`u8` converts directly; `u16` and `u32` go through `char::from_u32`;
`conv_int_to_char!` is invoked for `i8, i16, i32, i64, isize, u64, usize`. -/
def try_from_int_to_char (w64 : Bool) (s : ITy) (src : Int) :
    Except (CharErr Int) Int :=
  match s with
  | .u8 => .ok src
  | .u16 =>
    match value_from_cast (intCast (ITy.u32.ty w64)) src with
    | .ok usv =>
      match char_from_u32 usv with
      | some c => .ok c
      | none => .error (.unrepresentable src)
    | .error _ => .error (.unrepresentable src)
  | .u32 =>
    match char_from_u32 src with
    | some c => .ok c
    | none => .error (.unrepresentable src)
  | _ => conv_int_to_char w64 s src

/-- A Unicode scalar value: the code points `char` can represent. -/
def validScalar (n : Int) : Prop :=
  0 ≤ n ∧ ¬ (0xD800 ≤ n ∧ n ≤ 0xDFFF) ∧ n ≤ 0x10FFFF

instance (n : Int) : Decidable (validScalar n) := by
  unfold validScalar; infer_instance

/-! ## Error lattice and unwrap helpers (`errors.rs`, `misc.rs`) -/

/-- `enum NoError {}` — the uninhabited error type. -/
inductive NoError

/-- `enum GeneralError` from `errors.rs`. -/
inductive GeneralError
  | underflow | overflow | unrepresentable
deriving DecidableEq

/-- `impl From<NoError> for GeneralError`: its body is
`panic!("cannot convert NoError into GeneralError")`, unreachable because
no `NoError` value exists — which is exactly `nomatch`. -/
def noError_into_generalError : NoError → GeneralError :=
  fun e => nomatch e

/-- `UnwrapOk for Result<T, NoError>`: returns the `Ok` value; the `Err`
branch (`loop {}` in the source) is unreachable. -/
def unwrap_ok {α : Type} : Except NoError α → α
  | .ok v => v
  | .error e => nomatch e

/-- `enum RangeError` from `errors.rs` (payload-less). -/
inductive RangeErrP
  | underflow | overflow
deriving DecidableEq

/-- `UnwrapOrSaturate for Result<T, E> where T: Saturated, E: Into<RangeError>`:
widen the error, then substitute `saturated_min`/`saturated_max`. -/
def unwrap_or_saturate {α ε : Type} (satMin satMax : α) (intoRange : ε → RangeErrP) :
    Except ε α → α
  | .ok v => v
  | .error e =>
    match intoRange e with
    | .underflow => satMin
    | .overflow => satMax

/-- Modelled from the spec: the `Saturated` capability instances for the
built-in integer types are not part of the sources provided (only the
trait declaration in `misc.rs` is); per the spec, `Saturated` declares the
type's minimum value. -/
def saturated_min (t : IntTy) : Int :=
  t.min

/-- Modelled from the spec: as `saturated_min`, for the maximum value. -/
def saturated_max (t : IntTy) : Int :=
  t.max

/-- `unwrap_or_saturate` at a concrete integer destination type. -/
def unwrapOrSaturateInt (t : IntTy) (r : Except RangeErrP Int) : Int :=
  unwrap_or_saturate (saturated_min t) (saturated_max t) (fun e => e) r

/-! ## Chains of exact conversions

For the round-trip property the numeric types (integers and floats) and
their values are put into single sum types, the defined `ValueFrom` rules
are collected into one partial lookup, and success/failure is tracked with
`Option` (the composed conversion fails iff either link fails). -/

/-- A numeric type: one of the ten integer types, or `f32`, or `f64`. -/
inductive NTy
  | int (t : ITy)
  | fl32
  | fl64
deriving DecidableEq, Fintype

/-- A numeric value. -/
inductive NVal
  | iv (z : Int)
  | fv (x : Fp)
deriving DecidableEq

/-- `v` is a well-formed value of numeric type `A`. -/
def NVal.validFor (w64 : Bool) : NTy → NVal → Prop
  | .int t, .iv z => inRange (t.ty w64) z
  | .int _, .fv _ => False
  | .fl32, .fv _ => True
  | .fl32, .iv _ => False
  | .fl64, .fv _ => True
  | .fl64, .iv _ => False

instance (w64 : Bool) (A : NTy) (v : NVal) : Decidable (v.validFor w64 A) := by
  cases A <;> cases v <;> unfold NVal.validFor <;> infer_instance

/-- All `ValueFrom` implementations between the modelled numeric types, as
success-or-failure maps: the reflexive blanket impl `ValueFrom<Src> for Src`
(`Ok(src)`), the `lang_ints` table, the `lang_int_to_float` table, and
`ValueFrom<f32> for f64`.  `none` means no implementation exists for the
ordered pair (in particular float→integer and `f64 → f32`). -/
def vconv (w64 : Bool) : NTy → NTy → Option (NVal → Option NVal)
  | .int s, .int d =>
    if s = d then some fun v => some v
    else
      (arm w64 s d).map fun a v =>
        match v with
        | .iv z => ((valueByArm w64 s d a z).toOption).map .iv
        | .fv _ => none
  | .int s, .fl32 =>
    (armF s .f32).map fun a v =>
      match v with
      | .iv z => ((valueFloatByArm .f32 a z).toOption).map .fv
      | .fv _ => none
  | .int s, .fl64 =>
    (armF s .f64).map fun a v =>
      match v with
      | .iv z => ((valueFloatByArm .f64 a z).toOption).map .fv
      | .fv _ => none
  | .fl32, .fl32 => some fun v => some v
  | .fl32, .fl64 =>
    some fun v =>
      match v with
      | .fv x => ((value_from_f32_to_f64 x).toOption).map .fv
      | .iv _ => none
  | .fl64, .fl64 => some fun v => some v
  | .fl64, .fl32 => none
  | _, _ => none

/-- Run the `ValueFrom` rule for an ordered pair on a value; `none` when the
rule does not exist or the conversion fails. -/
def vconvRun (w64 : Bool) (A B : NTy) (v : NVal) : Option NVal :=
  match vconv w64 A B with
  | some f => f v
  | none => none

/-- The value any exact conversion must deliver at destination type `C`
when its source held the integer `z`. -/
def expRes (C : NTy) (z : Int) : NVal :=
  match C with
  | .int _ => .iv z
  | .fl32 => .fv (.finite (z : Rat))
  | .fl64 => .fv (.finite (z : Rat))

/-! ## Arithmetic lemmas about the `as`-cast -/

theorem intCast_spec (t : IntTy) (n : Int) (hb : t.bits ≠ 0) :
    intCast t n = spec_modular_truncation t n := by
  have hbpos : 0 < t.bits := Nat.pos_of_ne_zero hb
  have hsplit : (2 : Int) ^ t.bits = 2 ^ (t.bits - 1) * 2 := by
    rw [← pow_succ]
    congr 1
    omega
  set H : Int := 2 ^ (t.bits - 1) with hH
  set P : Int := 2 ^ t.bits with hP
  have hHpos : 0 < H := by positivity
  have hPpos : 0 < P := by positivity
  unfold intCast spec_modular_truncation
  rw [← hH, ← hP]
  cases ht : t.signed with
  | false => simp
  | true =>
    simp only [true_and, if_true]
    set m : Int := n % P with hm
    have hm0 : 0 ≤ m := Int.emod_nonneg n (by omega)
    have hmP : m < P := Int.emod_lt_of_pos n hPpos
    have hk : (n + H) % P = (m + H) % P := by
      rw [hm, Int.emod_add_emod]
    by_cases hcase : H ≤ m
    · have h1 : (m + H) % P = (m + H - P) % P := by
        conv_lhs => rw [show m + H = m + H - P + P * 1 by ring]
        rw [Int.add_mul_emod_self_left]
      have h2 : (m + H - P) % P = m + H - P :=
        Int.emod_eq_of_lt (by omega) (by omega)
      rw [if_pos hcase, hk, h1, h2]
      ring
    · have h2 : (m + H) % P = m + H :=
        Int.emod_eq_of_lt (by omega) (by omega)
      rw [if_neg hcase, hk, h2]
      ring

theorem intCast_in_range (t : IntTy) (n : Int) (hb : t.bits ≠ 0) :
    inRange t (intCast t n) := by
  have hbpos : 0 < t.bits := Nat.pos_of_ne_zero hb
  have hsplit : (2 : Int) ^ t.bits = 2 ^ (t.bits - 1) * 2 := by
    rw [← pow_succ]
    congr 1
    omega
  set H : Int := 2 ^ (t.bits - 1) with hH
  set P : Int := 2 ^ t.bits with hP
  have hHpos : 0 < H := by positivity
  have hPpos : 0 < P := by positivity
  have hm0 : 0 ≤ n % P := Int.emod_nonneg n (by omega)
  have hmP : n % P < P := Int.emod_lt_of_pos n hPpos
  unfold intCast inRange IntTy.min IntTy.max
  rw [← hH, ← hP]
  cases ht : t.signed with
  | false =>
    simp only [Bool.false_eq_true, false_and, if_false]
    omega
  | true =>
    simp only [eq_self_iff_true, true_and, if_true]
    by_cases hcase : H ≤ n % P
    · rw [if_pos hcase]
      constructor <;> omega
    · rw [if_neg hcase]
      constructor <;> omega

theorem intCast_id (t : IntTy) (n : Int) (hb : t.bits ≠ 0) (h : inRange t n) :
    intCast t n = n := by
  have hbpos : 0 < t.bits := Nat.pos_of_ne_zero hb
  have hsplit : (2 : Int) ^ t.bits = 2 ^ (t.bits - 1) * 2 := by
    rw [← pow_succ]
    congr 1
    omega
  set H : Int := 2 ^ (t.bits - 1) with hH
  set P : Int := 2 ^ t.bits with hP
  have hHpos : 0 < H := by positivity
  have hPpos : 0 < P := by positivity
  obtain ⟨h1, h2⟩ := h
  unfold IntTy.min at h1
  unfold IntTy.max at h2
  unfold intCast
  rw [← hH, ← hP]
  cases ht : t.signed with
  | false =>
    rw [ht] at h1 h2
    simp only [Bool.false_eq_true, if_false] at h1 h2
    simp only [Bool.false_eq_true, false_and, if_false]
    exact Int.emod_eq_of_lt h1 (by omega)
  | true =>
    rw [ht] at h1 h2
    simp only [eq_self_iff_true, if_true] at h1 h2
    rw [← hH] at h1 h2
    simp only [eq_self_iff_true, true_and, if_true]
    by_cases hneg : 0 ≤ n
    · have hmod : n % P = n := Int.emod_eq_of_lt hneg (by omega)
      rw [hmod, if_neg (by omega)]
    · have hrw : n % P = (n + P) % P := by
        have : n + P = n + P * 1 := by ring
        rw [this, Int.add_mul_emod_self_left]
      have hmod : (n + P) % P = n + P := Int.emod_eq_of_lt (by omega) (by omega)
      rw [hrw, hmod, if_pos (by omega)]
      ring

theorem intCast_emod (t : IntTy) (n : Int) :
    intCast t n % 2 ^ t.bits = n % 2 ^ t.bits := by
  unfold intCast
  by_cases hcase : t.signed ∧ (2 : Int) ^ (t.bits - 1) ≤ n % 2 ^ t.bits
  · rw [if_pos hcase]
    rw [Int.sub_emod, Int.emod_self, sub_zero, Int.emod_emod_of_dvd _ dvd_rfl,
      Int.emod_emod_of_dvd _ dvd_rfl]
  · rw [if_neg hcase]
    exact Int.emod_emod_of_dvd _ dvd_rfl

/-! ## Facts about the rule tables, established by enumeration -/

theorem ity_bits_ne_zero : ∀ (w64 : Bool) (t : ITy), (t.ty w64).bits ≠ 0 := by
  decide

theorem table_fact_ew :
    ∀ (w64 : Bool) (s d : ITy),
      (arm w64 s d = some .e ∨ arm w64 s d = some .w) →
        (d.ty w64).min ≤ (s.ty w64).min ∧ (s.ty w64).max ≤ (d.ty w64).max := by
  decide

theorem table_fact_nP :
    ∀ (w64 : Bool) (s d : ITy),
      arm w64 s d = some .nP →
        (d.ty w64).min = 0 ∧ intCast (s.ty w64) (d.ty w64).max ≤ (d.ty w64).max := by
  decide

theorem table_fact_nM :
    ∀ (w64 : Bool) (s d : ITy),
      arm w64 s d = some .nM →
        (s.ty w64).min = 0 ∧ (d.ty w64).min ≤ 0 ∧
          intCast (s.ty w64) (d.ty w64).max ≤ (d.ty w64).max := by
  decide

theorem table_fact_n :
    ∀ (w64 : Bool) (s d : ITy),
      arm w64 s d = some .n →
        intCast (s.ty w64) (d.ty w64).min = (d.ty w64).min ∧
          intCast (s.ty w64) (d.ty w64).max = (d.ty w64).max := by
  decide

theorem table_fact_wP :
    ∀ (w64 : Bool) (s d : ITy),
      arm w64 s d = some .wP →
        (d.ty w64).min = 0 ∧ (s.ty w64).max ≤ (d.ty w64).max := by
  decide

/-! ## Float-side lemmas -/

theorem intToFp_exact (p : Nat) (n : Int) (h : |n| ≤ 2 ^ p) :
    intToFp p n = (n : Rat) := by
  unfold intToFp
  rw [if_pos ?hc]
  case hc =>
    have h1 : ((n.natAbs : Int)) = |n| := (Int.abs_eq_natAbs n).symm
    have h2 : (n.natAbs : Int) ≤ ((2 ^ p : Nat) : Int) := by
      rw [h1]
      exact_mod_cast h
    exact_mod_cast h2

theorem pre_isNan (sch : Scheme) (src : Fp) : (sch.pre src).isNan = src.isNan := by
  cases sch <;> cases src <;> rfl

theorem fpLe_iff_not_fpLt (x y : Fp) (hx : x.isNan = false) (hy : y.isNan = false) :
    fpLe x y = true ↔ ¬ fpLt y x = true := by
  cases x with
  | nan => simp [Fp.isNan] at hx
  | inf bx =>
    cases y with
    | nan => simp [Fp.isNan] at hy
    | inf by' => cases bx <;> cases by' <;> simp [fpLe, fpLt]
    | finite b => cases bx <;> simp [fpLe, fpLt]
  | finite a =>
    cases y with
    | nan => simp [Fp.isNan] at hy
    | inf by' => cases by' <;> simp [fpLe, fpLt]
    | finite b => simp [fpLe, fpLt, not_lt]

/-- Table facts for `lang_int_to_float`, phrased as a decidable scan of the
finitely many entries. -/
def armFFactAt (s : ITy) (fmt : FTy) : Prop :=
  match armF s fmt with
  | none => True
  | some .wF =>
    ∀ w64 : Bool, -(2 ^ fmt.prec : Int) ≤ (s.ty w64).min ∧ (s.ty w64).max ≤ 2 ^ fmt.prec
  | some (.nfPM b) => b = 2 ^ fmt.prec
  | some (.nfMax b) => b = 2 ^ fmt.prec ∧ ∀ w64 : Bool, (s.ty w64).min = 0

theorem armF_fact : ∀ (s : ITy) (fmt : FTy), armFFactAt s fmt := by
  intro s fmt
  cases s <;> cases fmt <;> first
    | trivial
    | (unfold armFFactAt armF FTy.prec; decide)

/-- Error-kind attribution of the `lang_int_to_float` table: whenever the
declared error type is not `NoError`, it is `RangeError` precisely for the
signed source types and the positive-overflow-only kind precisely for the
unsigned source types. -/
def armFKindFactAt (s : ITy) (fmt : FTy) : Prop :=
  match armF s fmt with
  | none => True
  | some fa =>
    ∀ w64 : Bool,
      valueFloatArmKind fa ≠ .noErr →
        (((s.ty w64).signed = true ↔ valueFloatArmKind fa = .range) ∧
         ((s.ty w64).signed = false ↔ valueFloatArmKind fa = .posOnly))

theorem armF_kind_fact : ∀ (s : ITy) (fmt : FTy), armFKindFactAt s fmt := by
  intro s fmt
  cases s <;> cases fmt <;> first
    | trivial
    | (unfold armFKindFactAt armF valueFloatArmKind; decide)

/-- Successful integer→float `ValueFrom` conversions are exact, and they
succeed exactly on the magnitude range `|src| ≤ 2 ^ p`; outside it they
fail in the direction of the excess. -/
theorem valueFloatByArm_char (fmt : FTy) (w64 : Bool) (s : ITy) (fa : FArm)
    (h : armF s fmt = some fa) (src : Int) (hs : inRange (s.ty w64) src) :
    (|src| ≤ 2 ^ fmt.prec →
      valueFloatByArm fmt fa src = .ok (.finite (src : Rat))) ∧
    (src < -(2 ^ fmt.prec : Int) →
      valueFloatByArm fmt fa src = .error (.negOverflow src)) ∧
    ((2 ^ fmt.prec : Int) < src →
      valueFloatByArm fmt fa src = .error (.posOverflow src)) := by
  have hfact := armF_fact s fmt
  unfold armFFactAt at hfact
  rw [h] at hfact
  cases fa with
  | wF =>
    obtain ⟨hlo, hhi⟩ := hfact w64
    have habs : |src| ≤ 2 ^ fmt.prec := abs_le.mpr ⟨le_trans hlo hs.1, le_trans hs.2 hhi⟩
    refine ⟨fun _ => ?_, fun hneg => ?_, fun hpos => ?_⟩
    · simp only [valueFloatByArm, intToFpVal, intToFp_exact _ _ habs]
    · exact absurd hneg (by have := abs_le.mp habs; omega)
    · exact absurd hpos (by have := abs_le.mp habs; omega)
  | nfPM b =>
    subst hfact
    refine ⟨fun habs => ?_, fun hneg => ?_, fun hpos => ?_⟩
    · obtain ⟨h1, h2⟩ := abs_le.mp habs
      simp only [valueFloatByArm, value_from_nf_pm, not_le, if_neg (not_lt.mpr h1),
        if_neg (not_lt.mpr h2), intToFpVal, intToFp_exact _ _ habs]
    · simp only [valueFloatByArm, value_from_nf_pm, not_le, if_pos hneg]
    · have hp : (0 : Int) < 2 ^ fmt.prec := by positivity
      have h1 : -(2 ^ fmt.prec : Int) ≤ src := by omega
      simp only [valueFloatByArm, value_from_nf_pm, not_le, if_neg (not_lt.mpr h1),
        if_pos hpos]
  | nfMax b =>
    obtain ⟨hb, hmin⟩ := hfact
    subst hb
    have h0 : 0 ≤ src := by
      have := hs.1
      rw [hmin w64] at this
      exact this
    refine ⟨fun habs => ?_, fun hneg => ?_, fun hpos => ?_⟩
    · obtain ⟨h1, h2⟩ := abs_le.mp habs
      simp only [valueFloatByArm, value_from_nf_max, not_le, if_neg (not_lt.mpr h2),
        intToFpVal, intToFp_exact _ _ habs]
    · exact absurd hneg (by
        have hp : (0 : Int) < 2 ^ fmt.prec := by positivity
        omega)
    · simp only [valueFloatByArm, value_from_nf_max, not_le, if_pos hpos]

/-! ## Char-conversion facts -/

theorem u32_ty_max : ∀ w64 : Bool, (ITy.u32.ty w64).max = 2 ^ 32 - 1 := by
  decide

theorem table_fact_u32 :
    ∀ (w64 : Bool) (s : ITy) (a : Arm),
      arm w64 s .u32 = some a →
        a ≠ .n ∧
        ((a = .e ∨ a = .w) → 0 ≤ (s.ty w64).min ∧ (s.ty w64).max ≤ 2 ^ 32 - 1) ∧
        (a = .nP → intCast (s.ty w64) ((ITy.u32.ty w64).max) = 2 ^ 32 - 1) ∧
        (a = .nM →
          intCast (s.ty w64) ((ITy.u32.ty w64).max) = 2 ^ 32 - 1 ∧ (s.ty w64).min = 0) ∧
        (a = .wP → (s.ty w64).max ≤ 2 ^ 32 - 1) := by
  decide

/-- Behaviour of `u32::value_from` on values of any integer source type of
the `lang_ints` table: success (with the exact value) inside `u32`'s range,
failure outside it. -/
theorem valueToU32_char (w64 : Bool) (s : ITy) (a : Arm)
    (harm : arm w64 s .u32 = some a) (src : Int) (hs : inRange (s.ty w64) src) :
    (0 ≤ src ∧ src ≤ 2 ^ 32 - 1 → valueByArm w64 s .u32 a src = .ok src) ∧
    (src < 0 → ∃ e, valueByArm w64 s .u32 a src = .error e) ∧
    (2 ^ 32 - 1 < src → ∃ e, valueByArm w64 s .u32 a src = .error e) := by
  obtain ⟨hn, hew, hnP, hnM, hwP⟩ := table_fact_u32 w64 s a harm
  have hbu : (ITy.u32.ty w64).bits ≠ 0 := ity_bits_ne_zero w64 .u32
  have hmax := u32_ty_max w64
  have hmin : (ITy.u32.ty w64).min = 0 := by cases w64 <;> rfl
  have hcast : ∀ z : Int, 0 ≤ z → z ≤ 2 ^ 32 - 1 → intCast (ITy.u32.ty w64) z = z := by
    intro z h1 h2
    exact intCast_id _ _ hbu ⟨by rw [hmin]; exact h1, by rw [hmax]; exact h2⟩
  cases a with
  | e =>
    obtain ⟨h1, h2⟩ := hew (Or.inl rfl)
    refine ⟨fun hin => ?_, fun hneg => absurd hneg (by have := hs.1; omega),
      fun hpos => absurd hpos (by have := hs.2; omega)⟩
    simp only [valueByArm, value_from_cast, hcast src hin.1 hin.2]
  | w =>
    obtain ⟨h1, h2⟩ := hew (Or.inr rfl)
    refine ⟨fun hin => ?_, fun hneg => absurd hneg (by have := hs.1; omega),
      fun hpos => absurd hpos (by have := hs.2; omega)⟩
    simp only [valueByArm, value_from_cast, hcast src hin.1 hin.2]
  | nP =>
    have hc := hnP rfl
    refine ⟨fun hin => ?_, fun hneg => ?_, fun hpos => ?_⟩
    · simp only [valueByArm, value_from_n_plus, hc, not_le, if_neg (not_lt.mpr hin.1),
        if_neg (not_lt.mpr hin.2), hcast src hin.1 hin.2]
    · exact ⟨.negOverflow src, by
        simp only [valueByArm, value_from_n_plus, not_le, if_pos hneg]⟩
    · exact ⟨.posOverflow src, by
        have h0 : 0 ≤ src := by omega
        simp only [valueByArm, value_from_n_plus, hc, not_le,
          if_neg (not_lt.mpr h0), if_pos hpos]⟩
  | nM =>
    obtain ⟨hc, hsmin⟩ := hnM rfl
    have h0 : 0 ≤ src := by have := hs.1; rw [hsmin] at this; exact this
    refine ⟨fun hin => ?_, fun hneg => absurd hneg (by omega), fun hpos => ?_⟩
    · simp only [valueByArm, value_from_n_minus, hc, not_le,
        if_neg (not_lt.mpr hin.2), hcast src hin.1 hin.2]
    · exact ⟨.posOverflow src, by
        simp only [valueByArm, value_from_n_minus, hc, not_le, if_pos hpos]⟩
  | n => exact absurd rfl hn
  | wP =>
    have hsmax := hwP rfl
    refine ⟨fun hin => ?_, fun hneg => ?_,
      fun hpos => absurd hpos (by have := hs.2; omega)⟩
    · simp only [valueByArm, value_from_w_plus, not_le, if_neg (not_lt.mpr hin.1),
        hcast src hin.1 hin.2]
    · exact ⟨.negOverflow src, by
        simp only [valueByArm, value_from_w_plus, not_le, if_pos hneg]⟩

/-- Behaviour of the `conv_int_to_char!` path: accept exactly the Unicode
scalar values, reporting every failure as `Unrepresentable(src)`. -/
theorem conv_int_to_char_char (w64 : Bool) (s : ITy)
    (ha : ∃ a, arm w64 s .u32 = some a) (src : Int)
    (hs : inRange (s.ty w64) src) :
    (validScalar src → conv_int_to_char w64 s src = .ok src) ∧
    (¬ validScalar src → conv_int_to_char w64 s src = .error (.unrepresentable src)) := by
  obtain ⟨a, harm⟩ := ha
  have hchar := valueToU32_char w64 s a harm src hs
  constructor
  · intro hv
    obtain ⟨h0, hsur, hmax⟩ := hv
    have hin : 0 ≤ src ∧ src ≤ 2 ^ 32 - 1 := ⟨h0, by omega⟩
    have hsome : char_from_u32 src = some src := by
      unfold char_from_u32
      rw [if_neg (by omega)]
    simp only [conv_int_to_char, harm, hchar.1 hin, hsome]
  · intro hnv
    unfold validScalar at hnv
    rcases lt_or_le src 0 with hneg | h0
    · obtain ⟨e, he⟩ := hchar.2.1 hneg
      simp only [conv_int_to_char, harm, he]
    · rcases le_or_lt src (2 ^ 32 - 1) with hle | hgt
      · have hok := hchar.1 ⟨h0, hle⟩
        have hnone : char_from_u32 src = none := by
          unfold char_from_u32
          rw [if_pos (by omega)]
        simp only [conv_int_to_char, harm, hok, hnone]
      · obtain ⟨e, he⟩ := hchar.2.2 hgt
        simp only [conv_int_to_char, harm, he]

/-- Any successful `ValueFrom` conversion between integer types preserves
the value exactly, and its input lay inside the destination's range. -/
theorem valueByArm_ok (w64 : Bool) (s d : ITy) (a : Arm)
    (harm : arm w64 s d = some a) (src v : Int)
    (hs : inRange (s.ty w64) src)
    (h : valueByArm w64 s d a src = .ok v) :
    v = src ∧ inRange (d.ty w64) src := by
  have hbd := ity_bits_ne_zero w64 d
  cases a with
  | e =>
    obtain ⟨h1, h2⟩ := table_fact_ew w64 s d (Or.inl harm)
    have hd : inRange (d.ty w64) src := ⟨le_trans h1 hs.1, le_trans hs.2 h2⟩
    refine ⟨?_, hd⟩
    simp only [valueByArm, value_from_cast, Except.ok.injEq] at h
    rw [← h, intCast_id _ _ hbd hd]
  | w =>
    obtain ⟨h1, h2⟩ := table_fact_ew w64 s d (Or.inr harm)
    have hd : inRange (d.ty w64) src := ⟨le_trans h1 hs.1, le_trans hs.2 h2⟩
    refine ⟨?_, hd⟩
    simp only [valueByArm, value_from_cast, Except.ok.injEq] at h
    rw [← h, intCast_id _ _ hbd hd]
  | nP =>
    obtain ⟨h1, h2⟩ := table_fact_nP w64 s d harm
    simp only [valueByArm, value_from_n_plus] at h
    split at h
    · exact absurd h (by simp)
    · split at h
      · exact absurd h (by simp)
      · rename_i hg1 hg2
        push_neg at hg1 hg2
        have hd : inRange (d.ty w64) src := ⟨by omega, by omega⟩
        simp only [Except.ok.injEq] at h
        exact ⟨by rw [← h, intCast_id _ _ hbd hd], hd⟩
  | nM =>
    obtain ⟨h1, h2, h3⟩ := table_fact_nM w64 s d harm
    simp only [valueByArm, value_from_n_minus] at h
    split at h
    · exact absurd h (by simp)
    · rename_i hg1
      push_neg at hg1
      have hs1 := hs.1
      rw [h1] at hs1
      have hd : inRange (d.ty w64) src := ⟨by omega, by omega⟩
      simp only [Except.ok.injEq] at h
      exact ⟨by rw [← h, intCast_id _ _ hbd hd], hd⟩
  | n =>
    obtain ⟨h1, h2⟩ := table_fact_n w64 s d harm
    simp only [valueByArm, value_from_n] at h
    split at h
    · exact absurd h (by simp)
    · split at h
      · exact absurd h (by simp)
      · rename_i hg1 hg2
        push_neg at hg1 hg2
        rw [h1] at hg1
        rw [h2] at hg2
        have hd : inRange (d.ty w64) src := ⟨hg1, hg2⟩
        simp only [Except.ok.injEq] at h
        exact ⟨by rw [← h, intCast_id _ _ hbd hd], hd⟩
  | wP =>
    obtain ⟨h1, h2⟩ := table_fact_wP w64 s d harm
    simp only [valueByArm, value_from_w_plus] at h
    split at h
    · exact absurd h (by simp)
    · rename_i hg1
      push_neg at hg1
      have hs2 := hs.2
      have hd : inRange (d.ty w64) src := ⟨by omega, by omega⟩
      simp only [Except.ok.injEq] at h
      exact ⟨by rw [← h, intCast_id _ _ hbd hd], hd⟩

/-! ## Chain lemmas -/

/-- A defined, successful exact conversion out of an integer type delivers
exactly the source integer (rendered at the destination type) and a value
valid for the destination. -/
theorem vconv_int_ok (w64 : Bool) (s : ITy) (C : NTy) (f : NVal → Option NVal)
    (hf : vconv w64 (.int s) C = some f) (z : Int) (hz : inRange (s.ty w64) z)
    (u : NVal) (hu : f (.iv z) = some u) :
    u = expRes C z ∧ u.validFor w64 C := by
  cases C with
  | int d =>
    by_cases hsd : s = d
    · subst hsd
      rw [vconv, if_pos rfl, Option.some.injEq] at hf
      rw [← hf, Option.some.injEq] at hu
      exact ⟨hu.symm, by rw [← hu]; exact hz⟩
    · rw [vconv, if_neg hsd] at hf
      obtain ⟨a, harm, hfa⟩ := Option.map_eq_some'.mp hf
      rw [← hfa] at hu
      simp only at hu
      cases hres : valueByArm w64 s d a z with
      | error e => rw [hres] at hu; simp [Except.toOption] at hu
      | ok r =>
        rw [hres] at hu
        simp only [Except.toOption, Option.map_some', Option.some.injEq] at hu
        obtain ⟨hr, hin⟩ := valueByArm_ok w64 s d a harm z r hz hres
        subst hr
        exact ⟨by rw [← hu, expRes], by rw [← hu]; exact hin⟩
  | fl32 =>
    obtain ⟨a, harm, hfa⟩ := Option.map_eq_some'.mp hf
    rw [← hfa] at hu
    simp only at hu
    have hchar := valueFloatByArm_char .f32 w64 s a harm z hz
    by_cases habs : |z| ≤ 2 ^ FTy.prec .f32
    · rw [hchar.1 habs] at hu
      simp only [Except.toOption, Option.map_some', Option.some.injEq] at hu
      exact ⟨hu.symm, by rw [← hu]; trivial⟩
    · exfalso
      push_neg at habs
      rcases lt_or_le z 0 with hneg | hpos
      · have : z < -(2 ^ FTy.prec .f32 : Int) := by
          have := abs_of_neg hneg
          omega
        rw [hchar.2.1 this] at hu
        simp [Except.toOption] at hu
      · have : (2 ^ FTy.prec .f32 : Int) < z := by
          have := abs_of_nonneg hpos
          omega
        rw [hchar.2.2 this] at hu
        simp [Except.toOption] at hu
  | fl64 =>
    obtain ⟨a, harm, hfa⟩ := Option.map_eq_some'.mp hf
    rw [← hfa] at hu
    simp only at hu
    have hchar := valueFloatByArm_char .f64 w64 s a harm z hz
    by_cases habs : |z| ≤ 2 ^ FTy.prec .f64
    · rw [hchar.1 habs] at hu
      simp only [Except.toOption, Option.map_some', Option.some.injEq] at hu
      exact ⟨hu.symm, by rw [← hu]; trivial⟩
    · exfalso
      push_neg at habs
      rcases lt_or_le z 0 with hneg | hpos
      · have : z < -(2 ^ FTy.prec .f64 : Int) := by
          have := abs_of_neg hneg
          omega
        rw [hchar.2.1 this] at hu
        simp [Except.toOption] at hu
      · have : (2 ^ FTy.prec .f64 : Int) < z := by
          have := abs_of_nonneg hpos
          omega
        rw [hchar.2.2 this] at hu
        simp [Except.toOption] at hu

/-- Exact conversions whose source is a float type are all identities on
the value (the reflexive impls and the exact `f32 → f64` widening). -/
theorem vconv_float_id (w64 : Bool) (A C : NTy) (hA : A = .fl32 ∨ A = .fl64)
    (f : NVal → Option NVal) (hf : vconv w64 A C = some f) (x : Fp) (u : NVal)
    (hu : f (.fv x) = some u) : u = .fv x := by
  rcases hA with hA | hA <;> subst hA
  · cases C with
    | int d => exact absurd hf (by simp [vconv])
    | fl32 =>
      simp only [vconv, Option.some.injEq] at hf
      rw [← hf, Option.some.injEq] at hu
      exact hu.symm
    | fl64 =>
      simp only [vconv, Option.some.injEq] at hf
      rw [← hf] at hu
      simp only [value_from_f32_to_f64, Except.toOption, Option.map_some',
        Option.some.injEq] at hu
      exact hu.symm
  · cases C with
    | int d => exact absurd hf (by simp [vconv])
    | fl32 => exact absurd hf (by simp [vconv])
    | fl64 =>
      simp only [vconv, Option.some.injEq] at hf
      rw [← hf, Option.some.injEq] at hu
      exact hu.symm

/-- A float-typed source value can only enter links whose destination is
also a float type. -/
theorem vconv_float_to_int_none (w64 : Bool) (A : NTy) (d : ITy)
    (hA : A = .fl32 ∨ A = .fl64) : vconv w64 A (.int d) = none := by
  rcases hA with hA | hA <;> subst hA <;> rfl

/-! ## Claim theorems -/

/-- Claim C2: the exact conversions satisfy the spec's seed boundary cases:
`u8::value_from(-1i8)` fails with a negative overflow (`Underflow`);
`u8::value_from(0i8)` is `Ok(0)`; `u8::value_from(-1i16)` and
`u8::value_from(256i16)` fail negatively resp. positively under the
`RangeError` kind; `f32::value_from(16_777_216i32)` is `Ok(16777216.0)`;
`f32::value_from(16_777_217i32)` fails with a positive overflow. -/
theorem value_from_seed_boundary_cases :
    (∀ w64 : Bool,
      value_from_int w64 .i8 .u8 (-1) = some (.error (.negOverflow (-1))) ∧
      value_from_int w64 .i8 .u8 0 = some (.ok 0) ∧
      value_from_int w64 .i16 .u8 (-1) = some (.error (.negOverflow (-1))) ∧
      value_from_int w64 .i16 .u8 256 = some (.error (.posOverflow 256)) ∧
      arm w64 .i16 .u8 = some .nP ∧ valueArmKind .nP = .range) ∧
    value_from_int_to_float .f32 .i32 16777216 = some (.ok (.finite 16777216)) ∧
    value_from_int_to_float .f32 .i32 16777217 =
      some (.error (.posOverflow 16777217)) ∧
    armF .i32 .f32 = some (.nfPM 16777216) ∧
    valueFloatArmKind (.nfPM 16777216) = .range := by
  refine ⟨by decide, ?_, by decide, rfl, rfl⟩
  have : intToFp (FTy.prec .f32) 16777216 = (16777216 : Rat) :=
    intToFp_exact _ _ (by decide)
  simp only [value_from_int_to_float, armF, Option.map_some', valueFloatByArm,
    value_from_nf_pm, intToFpVal, this]
  norm_num

/-- Claim C10: for every integer→integer pair of the rule table, the
default-scheme approximate conversion is extensionally equal to the exact
conversion — same successes, same values, and the same error
classification (the declared error kinds coincide arm by arm). -/
theorem default_approx_eq_value_from :
    ∀ (w64 : Bool) (s d : ITy) (a : Arm), arm w64 s d = some a →
      (∀ src : Int, approxDefaultByArm w64 s d a src = valueByArm w64 s d a src) ∧
      approxDefaultArmKind a = valueArmKind a := by
  intro w64 s d a _
  refine ⟨fun src => ?_, by cases a <;> rfl⟩
  cases a <;> rfl

theorem default_approx_eq_value_from_witness :
    arm true .i32 .u8 = some .nP ∧
    approxDefaultByArm true .i32 .u8 .nP 300 = valueByArm true .i32 .u8 .nP 300 :=
  ⟨rfl, (default_approx_eq_value_from true .i32 .u8 .nP rfl).1 300⟩

/-- Claim C4: for every integer pair of the rule table the Wrapping-scheme
conversion always succeeds (its declared error type is the uninhabited
`NoError`), and the result is the modular two's-complement truncation of
the source into the destination width (it lies in the destination's range
and is congruent to the source modulo `2 ^ bits`); the reflexive blanket
impl satisfies the same description for identical source and destination. -/
theorem wrapping_modular_truncation :
    (∀ (w64 : Bool) (s d : ITy) (a : Arm), arm w64 s d = some a → ∀ src : Int,
      wrappingByArm w64 d src = .ok (spec_modular_truncation (d.ty w64) src) ∧
      inRange (d.ty w64) (spec_modular_truncation (d.ty w64) src) ∧
      spec_modular_truncation (d.ty w64) src % 2 ^ (d.ty w64).bits =
        src % 2 ^ (d.ty w64).bits ∧
      wrappingArmKind a = ErrKind.noErr) ∧
    (∀ (w64 : Bool) (t : ITy) (src : Int), inRange (t.ty w64) src →
      approxSelf src = .ok (spec_modular_truncation (t.ty w64) src)) := by
  constructor
  · intro w64 s d a _ src
    have hb := ity_bits_ne_zero w64 d
    have hspec := intCast_spec (d.ty w64) src hb
    refine ⟨?_, ?_, ?_, rfl⟩
    · simp only [wrappingByArm, approx_blind, hspec]
    · rw [← hspec]
      exact intCast_in_range _ _ hb
    · rw [← hspec]
      exact intCast_emod _ _
  · intro w64 t src hsrc
    have hb := ity_bits_ne_zero w64 t
    simp only [approxSelf, ← intCast_spec _ _ hb, intCast_id _ _ hb hsrc]

theorem wrapping_modular_truncation_witness :
    arm true .u16 .u8 = some .nM ∧
    wrappingByArm true .u8 400 = .ok (spec_modular_truncation (ITy.u8.ty true) 400) ∧
    spec_modular_truncation (ITy.u8.ty true) 400 = 144 :=
  ⟨rfl, (wrapping_modular_truncation.1 true .u16 .u8 .nM rfl 400).1, by decide⟩

/-- Claim C8: the `NoError` type has no values, so the error branch of any
conversion whose error type is `NoError` is unreachable: the widening
`From<NoError> for GeneralError` can never actually run (any property of
its output holds vacuously), and `unwrap_ok` on a `Result<T, NoError>`
always returns the `Ok` value. -/
theorem no_error_uninhabited_unwrap_ok :
    (∀ e : NoError, False) ∧
    (∀ (e : NoError) (g : GeneralError), noError_into_generalError e = g) ∧
    (∀ (α : Type) (v : α), unwrap_ok (Except.ok v) = v) ∧
    (∀ (α : Type) (r : Except NoError α), r = .ok (unwrap_ok r)) := by
  refine ⟨?_, ?_, ?_, ?_⟩
  · intro e
    exact nomatch e
  · intro e g
    exact nomatch e
  · intro α v
    rfl
  · intro α r
    cases r with
    | ok v => rfl
    | error e => exact nomatch e

/-- Claim C9: for any result whose error widens into `RangeError`,
`unwrap_or_saturate` returns the destination type's maximum on `Overflow`,
its minimum on `Underflow`, and the contained value unchanged on success;
re-wrapping the returned value in `Ok` and unwrapping again is the
identity (idempotence). -/
theorem unwrap_or_saturate_spec :
    ∀ (t : IntTy) (ε : Type) (intoRange : ε → RangeErrP) (r : Except ε Int),
      (∀ e, r = .error e → intoRange e = .overflow →
        unwrap_or_saturate (saturated_min t) (saturated_max t) intoRange r = t.max) ∧
      (∀ e, r = .error e → intoRange e = .underflow →
        unwrap_or_saturate (saturated_min t) (saturated_max t) intoRange r = t.min) ∧
      (∀ v, r = .ok v →
        unwrap_or_saturate (saturated_min t) (saturated_max t) intoRange r = v) ∧
      unwrapOrSaturateInt t
          (.ok (unwrap_or_saturate (saturated_min t) (saturated_max t) intoRange r)) =
        unwrap_or_saturate (saturated_min t) (saturated_max t) intoRange r := by
  intro t ε intoRange r
  refine ⟨?_, ?_, ?_, rfl⟩
  · rintro e rfl he
    simp only [unwrap_or_saturate, he, saturated_max]
  · rintro e rfl he
    simp only [unwrap_or_saturate, he, saturated_min]
  · rintro v rfl
    rfl

theorem unwrap_or_saturate_spec_witness :
    unwrap_or_saturate (saturated_min (ITy.u8.ty true)) (saturated_max (ITy.u8.ty true))
        (fun e => e) (.error RangeErrP.overflow) = (ITy.u8.ty true).max ∧
    (ITy.u8.ty true).max = 255 :=
  ⟨(unwrap_or_saturate_spec (ITy.u8.ty true) RangeErrP (fun e => e)
      (.error .overflow)).1 .overflow rfl rfl, by decide⟩

/-- Claim C3 counterexample: the claim states that integer→float exact
conversions report failures "with the RangeFailure error kind", but the
unsigned pairs declare the narrower `PosOverflow<$src>` type: `u32 → f32`
uses the `nf [, 16_777_216]` arm whose associated error type is
`PosOverflow<u32>`, not `RangeError<u32>`, as witnessed at the concretely
failing input `33_554_432u32`. -/
theorem int_to_float_err_kind_counterexample :
    armF .u32 .f32 = some (.nfMax 16777216) ∧
    valueFloatArmKind (.nfMax 16777216) = .posOnly ∧
    ErrKind.posOnly ≠ ErrKind.range ∧
    value_from_int_to_float .f32 .u32 33554432 =
      some (.error (.posOverflow 33554432)) := by
  refine ⟨rfl, rfl, by decide, by decide⟩

/-- Claim C3 (amended): for every integer→float exact conversion with
magnitude bound `B = 2^24` (single) / `B = 2^53` (double), the conversion
fails exactly when `|src| > B`, and succeeds with the exact value for
`|src| ≤ B`; whenever the pair's declared error kind is not `NoError`, it
is `RangeError` exactly for signed sources and the positive-overflow-only
kind exactly for unsigned sources (both widen into `RangeError`), while a
`NoError` pair indeed never fails. -/
theorem int_to_float_magnitude_bound (fmt : FTy) (w64 : Bool) (s : ITy) (fa : FArm)
    (h : armF s fmt = some fa) (src : Int) (hs : inRange (s.ty w64) src) :
    ((∃ e, valueFloatByArm fmt fa src = .error e) ↔ (2 : Int) ^ fmt.prec < |src|) ∧
    (|src| ≤ 2 ^ fmt.prec → valueFloatByArm fmt fa src = .ok (.finite (src : Rat))) ∧
    (valueFloatArmKind fa ≠ .noErr →
      (((s.ty w64).signed = true ↔ valueFloatArmKind fa = .range) ∧
       ((s.ty w64).signed = false ↔ valueFloatArmKind fa = .posOnly))) ∧
    (valueFloatArmKind fa = .noErr →
      valueFloatByArm fmt fa src = .ok (.finite (src : Rat))) := by
  have hchar := valueFloatByArm_char fmt w64 s fa h src hs
  refine ⟨⟨?_, ?_⟩, hchar.1, ?_, ?_⟩
  · rintro ⟨e, he⟩
    by_contra hc
    push_neg at hc
    rw [hchar.1 hc] at he
    cases he
  · intro habs
    rcases lt_or_le src 0 with hneg | hpos
    · refine ⟨.negOverflow src, hchar.2.1 ?_⟩
      have := abs_of_neg hneg
      omega
    · refine ⟨.posOverflow src, hchar.2.2 ?_⟩
      have := abs_of_nonneg hpos
      omega
  · intro hne
    have hk := armF_kind_fact s fmt
    unfold armFKindFactAt at hk
    rw [h] at hk
    exact hk w64 hne
  · intro hnoe
    cases fa with
    | wF =>
      have hfact := armF_fact s fmt
      unfold armFFactAt at hfact
      rw [h] at hfact
      obtain ⟨hlo, hhi⟩ := hfact w64
      exact hchar.1 (abs_le.mpr ⟨le_trans hlo hs.1, le_trans hs.2 hhi⟩)
    | nfPM b => simp [valueFloatArmKind] at hnoe
    | nfMax b => simp [valueFloatArmKind] at hnoe

theorem int_to_float_magnitude_bound_witness :
    armF .i32 .f32 = some (.nfPM 16777216) ∧
    inRange (ITy.i32.ty true) 16777217 ∧
    (∃ e, valueFloatByArm .f32 (.nfPM 16777216) 16777217 = .error e) ∧
    ((ITy.i32.ty true).signed = true ↔ valueFloatArmKind (.nfPM 16777216) = .range) :=
  ⟨rfl, by decide,
    (int_to_float_magnitude_bound .f32 true .i32 (.nfPM 16777216) rfl 16777217
      (by decide)).1.mpr (by decide),
    ((int_to_float_magnitude_bound .f32 true .i32 (.nfPM 16777216) rfl 16777217
      (by decide)).2.2.1 (by decide)).1⟩

/-- Claim C7: for every integer→`char` conversion, `try_from` accepts
exactly the Unicode scalar values (rejecting the surrogate range
`0xD800..=0xDFFF`, values above `0x10FFFF`, and negative values of signed
sources), failing with `Unrepresentable` carrying the rejected source
value, and succeeding with the corresponding code point otherwise. -/
theorem int_to_char_reject_set :
    ∀ (w64 : Bool) (s : ITy) (src : Int), inRange (s.ty w64) src →
      (validScalar src → try_from_int_to_char w64 s src = .ok src) ∧
      (¬ validScalar src →
        try_from_int_to_char w64 s src = .error (.unrepresentable src)) := by
  intro w64 s src hs
  have hu32bits : (ITy.u32.ty w64).bits ≠ 0 := ity_bits_ne_zero w64 .u32
  cases s with
  | u8 =>
    have h1 : (0 : Int) ≤ src := by
      have := hs.1
      cases w64 <;> simpa [ITy.ty, IntTy.min] using this
    have h2 : src ≤ 255 := by
      have := hs.2
      cases w64 <;> simpa [ITy.ty, IntTy.max] using this
    refine ⟨fun _ => rfl, fun hnv => absurd ?_ hnv⟩
    unfold validScalar
    omega
  | u16 =>
    have h1 : (0 : Int) ≤ src := by
      have := hs.1
      cases w64 <;> simpa [ITy.ty, IntTy.min] using this
    have h2 : src ≤ 65535 := by
      have := hs.2
      cases w64 <;> simpa [ITy.ty, IntTy.max] using this
    have hcast : intCast (ITy.u32.ty w64) src = src := by
      refine intCast_id _ _ hu32bits ⟨?_, ?_⟩ <;>
        cases w64 <;> simp [ITy.ty, IntTy.min, IntTy.max] <;> omega
    constructor
    · intro hv
      have hsome : char_from_u32 src = some src := by
        unfold char_from_u32
        unfold validScalar at hv
        rw [if_neg (by omega)]
      simp only [try_from_int_to_char, value_from_cast, hcast, hsome]
    · intro hnv
      unfold validScalar at hnv
      have hnone : char_from_u32 src = none := by
        unfold char_from_u32
        rw [if_pos (by omega)]
      simp only [try_from_int_to_char, value_from_cast, hcast, hnone]
  | u32 =>
    have h1 : (0 : Int) ≤ src := by
      have := hs.1
      cases w64 <;> simpa [ITy.ty, IntTy.min] using this
    constructor
    · intro hv
      have hsome : char_from_u32 src = some src := by
        unfold char_from_u32
        unfold validScalar at hv
        rw [if_neg (by omega)]
      simp only [try_from_int_to_char, hsome]
    · intro hnv
      unfold validScalar at hnv
      have hnone : char_from_u32 src = none := by
        unfold char_from_u32
        rw [if_pos (by omega)]
      simp only [try_from_int_to_char, hnone]
  | i8 => exact conv_int_to_char_char w64 .i8 ⟨.wP, rfl⟩ src hs
  | i16 => exact conv_int_to_char_char w64 .i16 ⟨.wP, rfl⟩ src hs
  | i32 => exact conv_int_to_char_char w64 .i32 ⟨.wP, rfl⟩ src hs
  | i64 => exact conv_int_to_char_char w64 .i64 ⟨.nP, rfl⟩ src hs
  | u64 => exact conv_int_to_char_char w64 .u64 ⟨.nM, rfl⟩ src hs
  | isz =>
    refine conv_int_to_char_char w64 .isz ?_ src hs
    cases w64
    · exact ⟨.wP, rfl⟩
    · exact ⟨.nP, rfl⟩
  | usz =>
    refine conv_int_to_char_char w64 .usz ?_ src hs
    cases w64
    · exact ⟨.e, rfl⟩
    · exact ⟨.nM, rfl⟩

/-- Claim C1: for every float source format, every integer destination
type (at either pointer width) and every approximation scheme, the
float→integer conversion fails first with `NotANumber` on a NaN source
(never with an overflow); otherwise the scheme's pre-transform (identity
for `DefaultApprox`, round/floor/ceil/trunc for the rounding schemes) is
applied, and the conversion fails with a negative overflow (`Underflow`)
when the transformed value is below `DstMIN`, with a positive overflow
(`Overflow`) when it is above `DstMAX` — both bounds rendered in the
source format's precision by `intToFp` — and otherwise converts the
transformed value and succeeds. -/
theorem float_to_int_fan_spec :
    ∀ (fmt : FTy) (w64 : Bool) (t : ITy) (sch : Scheme) (src : Fp),
      (src.isNan = true →
        float_to_int_approx fmt w64 t sch src = .error (.notANumber src)) ∧
      (src.isNan = false →
        (fpLt (sch.pre src) (.finite (intToFp fmt.prec (t.ty w64).min)) = true →
          float_to_int_approx fmt w64 t sch src = .error (.negOverflow src)) ∧
        (fpLt (sch.pre src) (.finite (intToFp fmt.prec (t.ty w64).min)) = false →
          fpLt (.finite (intToFp fmt.prec (t.ty w64).max)) (sch.pre src) = true →
          float_to_int_approx fmt w64 t sch src = .error (.posOverflow src)) ∧
        (fpLt (sch.pre src) (.finite (intToFp fmt.prec (t.ty w64).min)) = false →
          fpLt (.finite (intToFp fmt.prec (t.ty w64).max)) (sch.pre src) = false →
          float_to_int_approx fmt w64 t sch src = .ok (fpTruncInt (sch.pre src)))) := by
  intro fmt w64 t sch src
  set dmin : Fp := .finite (intToFp fmt.prec (t.ty w64).min) with hdmin
  set dmax : Fp := .finite (intToFp fmt.prec (t.ty w64).max) with hdmax
  have hdminN : dmin.isNan = false := by rw [hdmin]; rfl
  have hdmaxN : dmax.isNan = false := by rw [hdmax]; rfl
  constructor
  · intro h
    unfold float_to_int_approx approx_dmin_to_dmax_no_nan
    rw [← hdmin, ← hdmax, if_pos h]
  · intro h
    have ha : (sch.pre src).isNan = false := by rw [pre_isNan]; exact h
    refine ⟨?_, ?_, ?_⟩
    · intro hlt
      have hle : fpLe dmin (sch.pre src) = false := by
        cases hc : fpLe dmin (sch.pre src)
        · rfl
        · exact absurd hlt
            (by simpa using (fpLe_iff_not_fpLt dmin (sch.pre src) hdminN ha).mp hc)
      unfold float_to_int_approx approx_dmin_to_dmax_no_nan
      rw [← hdmin, ← hdmax]
      simp only [h, hle, Bool.false_eq_true, not_false_eq_true, if_true, if_false]
    · intro hnlt hlt
      have hle1 : fpLe dmin (sch.pre src) = true :=
        (fpLe_iff_not_fpLt dmin (sch.pre src) hdminN ha).mpr (by simp [hnlt])
      have hle2 : fpLe (sch.pre src) dmax = false := by
        cases hc : fpLe (sch.pre src) dmax
        · rfl
        · exact absurd hlt
            (by simpa using (fpLe_iff_not_fpLt (sch.pre src) dmax ha hdmaxN).mp hc)
      unfold float_to_int_approx approx_dmin_to_dmax_no_nan
      rw [← hdmin, ← hdmax]
      simp only [h, hle1, hle2, Bool.false_eq_true, not_false_eq_true, not_true,
        if_true, if_false]
    · intro hnlt1 hnlt2
      have hle1 : fpLe dmin (sch.pre src) = true :=
        (fpLe_iff_not_fpLt dmin (sch.pre src) hdminN ha).mpr (by simp [hnlt1])
      have hle2 : fpLe (sch.pre src) dmax = true :=
        (fpLe_iff_not_fpLt (sch.pre src) dmax ha hdmaxN).mpr (by simp [hnlt2])
      unfold float_to_int_approx approx_dmin_to_dmax_no_nan
      rw [← hdmin, ← hdmax]
      simp only [h, hle1, hle2, Bool.false_eq_true, not_false_eq_true, not_true,
        if_true, if_false]

theorem float_to_int_fan_spec_witness :
    float_to_int_approx .f32 true .u8 .default .nan = .error (.notANumber .nan) ∧
    float_to_int_approx .f32 true .u8 .default (.finite 20) = .ok 20 ∧
    float_to_int_approx .f32 true .u8 .default (.finite 300) =
      .error (.posOverflow (.finite 300)) :=
  ⟨(float_to_int_fan_spec .f32 true .u8 .default .nan).1 rfl,
    by
      have h :=
        (((float_to_int_fan_spec .f32 true .u8 .default
          (.finite 20)).2 rfl).2.2) (by decide) (by decide)
      rw [h]
      decide,
    (((float_to_int_fan_spec .f32 true .u8 .default
      (.finite 300)).2 rfl).2.1) (by decide) (by decide)⟩

/-- Claim C5: the `f64 → f32` narrowing approximation passes non-finite
sources (infinities and NaN) through unchanged as successes; a finite
source fails with a negative overflow (`Underflow`) exactly when it is
below `f32::MIN`, with a positive overflow (`Overflow`) exactly when it is
above `f32::MAX`, and otherwise succeeds (with the value rounded to single
precision). -/
theorem f64_to_f32_narrowing_spec :
    ∀ src : Fp,
      (src.isFinite = false → approx_f64_to_f32 src = .ok src) ∧
      (∀ q : Rat, src = .finite q →
        (q < f32_min_as_f64 → approx_f64_to_f32 src = .error (.negOverflow src)) ∧
        (f32_max_as_f64 < q → approx_f64_to_f32 src = .error (.posOverflow src)) ∧
        (f32_min_as_f64 ≤ q → q ≤ f32_max_as_f64 →
          approx_f64_to_f32 src = .ok (.finite (rne 24 q)))) := by
  intro src
  constructor
  · intro h
    cases src with
    | nan => rfl
    | inf b => rfl
    | finite q => simp [Fp.isFinite] at h
  · rintro q rfl
    refine ⟨fun hlt => ?_, fun hgt => ?_, fun h1 h2 => ?_⟩
    · unfold approx_f64_to_f32
      rw [if_neg (by simp [Fp.isFinite]),
        if_pos (by simp only [fpLe, decide_eq_true_eq]; exact not_le.mpr hlt)]
    · have hmin_le : f32_min_as_f64 ≤ q := by
        have hpos : (0 : Rat) < f32_max_as_f64 := by
          unfold f32_max_as_f64
          norm_num
        have : f32_min_as_f64 < f32_max_as_f64 := by
          unfold f32_min_as_f64
          linarith
        linarith
      unfold approx_f64_to_f32
      rw [if_neg (by simp [Fp.isFinite]),
        if_neg (by simp only [fpLe, decide_eq_true_eq, not_not]; exact hmin_le),
        if_pos (by simp only [fpLe, decide_eq_true_eq]; exact not_le.mpr hgt)]
    · unfold approx_f64_to_f32
      rw [if_neg (by simp [Fp.isFinite]),
        if_neg (by simp only [fpLe, decide_eq_true_eq, not_not]; exact h1),
        if_neg (by simp only [fpLe, decide_eq_true_eq, not_not]; exact h2)]
      rfl

theorem f64_to_f32_narrowing_spec_witness :
    approx_f64_to_f32 (.inf false) = .ok (.inf false) ∧
    approx_f64_to_f32 .nan = .ok .nan :=
  ⟨(f64_to_f32_narrowing_spec (.inf false)).1 rfl,
    (f64_to_f32_narrowing_spec .nan).1 rfl⟩

/-- Claim C6: for every chain of exact conversions `A → B → C` for which
both links and the direct `A → C` conversion are defined, and every
well-formed source value: whenever the composed conversion and the direct
conversion both succeed their results are identical, and whenever either
link fails the composed conversion fails. -/
theorem value_chain_composition :
    ∀ (w64 : Bool) (A B C : NTy) (v : NVal),
      v.validFor w64 A →
      (vconv w64 A B).isSome = true →
      (vconv w64 B C).isSome = true →
      (vconv w64 A C).isSome = true →
      (∀ u w, (vconvRun w64 A B v).bind (vconvRun w64 B C) = some u →
        vconvRun w64 A C v = some w → u = w) ∧
      (vconvRun w64 A B v = none → (vconvRun w64 A B v).bind (vconvRun w64 B C) = none) ∧
      (∀ m, vconvRun w64 A B v = some m → vconvRun w64 B C m = none →
        (vconvRun w64 A B v).bind (vconvRun w64 B C) = none) := by
  intro w64 A B C v hv hAB hBC hAC
  refine ⟨?_, fun h => by rw [h]; rfl, fun m hm hnone => by rw [hm]; exact hnone⟩
  intro u w hcomp hdirect
  obtain ⟨fab, hfab⟩ := Option.isSome_iff_exists.mp hAB
  obtain ⟨fbc, hfbc⟩ := Option.isSome_iff_exists.mp hBC
  obtain ⟨fac, hfac⟩ := Option.isSome_iff_exists.mp hAC
  have hrunAB : vconvRun w64 A B v = fab v := by unfold vconvRun; rw [hfab]
  have hrunAC : vconvRun w64 A C v = fac v := by unfold vconvRun; rw [hfac]
  rw [hrunAB] at hcomp
  rw [hrunAC] at hdirect
  obtain ⟨m, hm, hu⟩ := Option.bind_eq_some.mp hcomp
  have hrunBC : vconvRun w64 B C m = fbc m := by unfold vconvRun; rw [hfbc]
  rw [hrunBC] at hu
  cases A with
  | int s =>
    cases v with
    | fv x => exact absurd hv (by simp [NVal.validFor])
    | iv z =>
      have hz : inRange (s.ty w64) z := hv
      obtain ⟨hm_eq, hm_valid⟩ := vconv_int_ok w64 s B fab hfab z hz m hm
      obtain ⟨hw_eq, _⟩ := vconv_int_ok w64 s C fac hfac z hz w hdirect
      cases B with
      | int d =>
        rw [hm_eq] at hu hm_valid
        obtain ⟨hu_eq, _⟩ :=
          vconv_int_ok w64 d C fbc hfbc z hm_valid u hu
        rw [hu_eq, hw_eq]
      | fl32 =>
        rw [hm_eq] at hu
        have hu_eq := vconv_float_id w64 .fl32 C (Or.inl rfl) fbc hfbc
          (.finite (z : Rat)) u hu
        cases C with
        | int d =>
          rw [vconv_float_to_int_none w64 .fl32 d (Or.inl rfl)] at hfbc
          cases hfbc
        | fl32 => rw [hu_eq, hw_eq]; rfl
        | fl64 => rw [hu_eq, hw_eq]; rfl
      | fl64 =>
        rw [hm_eq] at hu
        have hu_eq := vconv_float_id w64 .fl64 C (Or.inr rfl) fbc hfbc
          (.finite (z : Rat)) u hu
        cases C with
        | int d =>
          rw [vconv_float_to_int_none w64 .fl64 d (Or.inr rfl)] at hfbc
          cases hfbc
        | fl32 =>
          rw [show vconv w64 .fl64 .fl32 = none from rfl] at hfbc
          cases hfbc
        | fl64 => rw [hu_eq, hw_eq]; rfl
  | fl32 =>
    cases v with
    | iv z => exact absurd hv (by simp [NVal.validFor])
    | fv x =>
      have hm_eq := vconv_float_id w64 .fl32 B (Or.inl rfl) fab hfab x m hm
      have hw_eq := vconv_float_id w64 .fl32 C (Or.inl rfl) fac hfac x w hdirect
      cases B with
      | int d =>
        rw [vconv_float_to_int_none w64 .fl32 d (Or.inl rfl)] at hfab
        cases hfab
      | fl32 =>
        rw [hm_eq] at hu
        have hu_eq := vconv_float_id w64 .fl32 C (Or.inl rfl) fbc hfbc x u hu
        rw [hu_eq, hw_eq]
      | fl64 =>
        rw [hm_eq] at hu
        have hu_eq := vconv_float_id w64 .fl64 C (Or.inr rfl) fbc hfbc x u hu
        rw [hu_eq, hw_eq]
  | fl64 =>
    cases v with
    | iv z => exact absurd hv (by simp [NVal.validFor])
    | fv x =>
      have hm_eq := vconv_float_id w64 .fl64 B (Or.inr rfl) fab hfab x m hm
      have hw_eq := vconv_float_id w64 .fl64 C (Or.inr rfl) fac hfac x w hdirect
      cases B with
      | int d =>
        rw [vconv_float_to_int_none w64 .fl64 d (Or.inr rfl)] at hfab
        cases hfab
      | fl32 =>
        rw [show vconv w64 .fl64 .fl32 = none from rfl] at hfab
        cases hfab
      | fl64 =>
        rw [hm_eq] at hu
        have hu_eq := vconv_float_id w64 .fl64 C (Or.inr rfl) fbc hfbc x u hu
        rw [hu_eq, hw_eq]

theorem value_chain_composition_witness :
    (NVal.iv 100).validFor true (.int .i32) ∧
    ((vconvRun true (.int .i32) (.int .i16) (.iv 100)).bind
      (vconvRun true (.int .i16) (.int .i8)) = some (.iv 100)) ∧
    vconvRun true (.int .i32) (.int .i8) (.iv 100) = some (.iv 100) ∧
    (NVal.iv 100 : NVal) = .iv 100 :=
  ⟨by decide, by decide, by decide,
    (value_chain_composition true (.int .i32) (.int .i16) (.int .i8) (.iv 100)
      (by decide) (by decide) (by decide) (by decide)).1 (.iv 100) (.iv 100)
      (by decide) (by decide)⟩

theorem int_to_char_reject_set_witness :
    inRange (ITy.i32.ty true) 55296 ∧ ¬ validScalar 55296 ∧
    try_from_int_to_char true .i32 55296 = .error (.unrepresentable 55296) ∧
    validScalar 97 ∧ try_from_int_to_char true .i32 97 = .ok 97 :=
  ⟨by decide, by decide,
    (int_to_char_reject_set true .i32 55296 (by decide)).2 (by decide),
    by decide,
    (int_to_char_reject_set true .i32 97 (by decide)).1 (by decide)⟩

end RustConv
